import Mathlib

/-!
Verification of the SoraWorker streaming relay (src/worker.js).

The embedding below models the client-side stream-reading logic of
`actions.generate` (src/worker.js lines 355-425), the per-line interpreter
`processLine` (lines 361-390), and the request gate of
`handleGenerateRequest` (lines 41-51).

Text is modelled as `List Char`.  The upstream byte stream is modelled at
the character level: `TextDecoder` with `stream: true` guarantees that the
decoded character sequence depends only on the concatenation of the byte
chunks, so arbitrary byte-level chunking is represented by arbitrary
character-level chunking.  The single host boundary left abstract is
`JSON.parse`: it is a fixed pure function from payload text to either a
parse failure or a `delta` record, and theorems that need it quantify over
an arbitrary such function (`parse : Str → Option Delta`).
-/

namespace SoraWorker

/-- Text, modelled as a list of characters. -/
abbrev Str := List Char

/-- The single-quote character (codepoint 39). -/
def squote : Char := Char.ofNat 39

/-! ## Frame buffer (src/worker.js lines 392-407)

The read loop keeps a pending `buffer`, appends each decoded chunk,
splits on the newline delimiter, processes every complete line, and keeps
the final (possibly partial) piece as the new buffer; at end-of-input any
non-empty leftover buffer is processed as one final line. -/

/-- `buffer.split('\n')` followed by `lines.pop()`: the completed lines and
the trailing (possibly empty) piece after the last delimiter. -/
def splitLines : Str → List Str × Str
  | [] => ([], [])
  | c :: rest =>
    if c = '\n' then ([] :: (splitLines rest).1, (splitLines rest).2)
    else
      match (splitLines rest).1 with
      | [] => ([], c :: (splitLines rest).2)
      | h :: t => ((c :: h) :: t, (splitLines rest).2)

/-- The read loop over a list of chunks starting from pending tail `buf`:
returns all completed lines in order, and the leftover tail.  The final
read (with `done = true`) runs the same split on the pending tail, which
is what the source loop does before breaking. -/
def feedAll : Str → List Str → List Str × Str
  | buf, [] => splitLines buf
  | buf, ch :: chs =>
    let p := splitLines (buf ++ ch)
    let q := feedAll p.2 chs
    (p.1 ++ q.1, q.2)

/-- All lines handed to `processLine` for a chunked stream, including the
final non-empty leftover tail (`if (buffer) processLine(buffer)`). -/
def linesOfChunks (chunks : List Str) : List Str :=
  let p := feedAll [] chunks
  p.1 ++ (if p.2 = [] then [] else [p.2])

/-! ## Delta interpreter (src/worker.js lines 361-390) -/

/-- The `delta` object of a parsed frame: `data.choices?.[0]?.delta || {}`.
A missing field is `none`; JavaScript truthiness additionally treats an
empty string like a missing field, which the interpreter checks. -/
structure Delta where
  reasoning_content : Option Str
  content : Option Str
  deriving DecidableEq

/-- A classified frame payload: the terminal sentinel `[DONE]`, a payload
on which `JSON.parse` throws, or a parsed frame with its delta. -/
inductive Frame where
  | doneSentinel : Frame
  | malformed : Frame
  | delta : Delta → Frame
  deriving DecidableEq

/-- Normalized events observable by the consumer: a progress update
(`render.loading(percent)`), the terminal success (the extracted URL is
used and stored), or the terminal failure (the error message shown). -/
inductive Event where
  | progress : Nat → Event
  | result : Str → Event
  | error : Str → Event
  deriving DecidableEq

/-- Decimal value of a digit run (the numeric reading of `progMatch[1]`). -/
def digitsToNat (ds : Str) : Nat :=
  ds.foldl (fun n c => n * 10 + (c.toNat - 48)) 0

/-- The JavaScript regex `/(\d+)%/` applied by `.match`: the leftmost
position where a (greedy, maximal) digit run is immediately followed by
the percent sign; returns the value of the captured digit run. -/
def matchPercent : Str → Option Nat
  | [] => none
  | c :: rest =>
    if c.isDigit then
      if ((c :: rest).dropWhile Char.isDigit).head? = some '%' then
        some (digitsToNat ((c :: rest).takeWhile Char.isDigit))
      else matchPercent rest
    else matchPercent rest

/-- A quote character, i.e. the character class `['"]`. -/
def isQuote (c : Char) : Bool := c == squote || c == '"'

/-- A character matched by `[^'"\\]` inside the capture group. -/
def isSrcRunChar (c : Char) : Bool := !(c == squote) && !(c == '"') && !(c == '\\')

/-- One anchored attempt of the regex `/src=['"]([^'"\\]+)['"]/` at the
start of `cs`: the literal `src=`, an opening quote, a non-empty maximal
run of `[^'"\\]` characters, and a closing quote (the two quotes need not
match each other, exactly as in the source pattern). -/
def trySrcAt : Str → Option Str
  | a :: b :: c :: d :: q :: rest =>
    if a = 's' ∧ b = 'r' ∧ c = 'c' ∧ d = '=' ∧ isQuote q = true then
      match rest.dropWhile isSrcRunChar with
      | [] => none
      | c2 :: _ =>
        if isQuote c2 = true ∧ rest.takeWhile isSrcRunChar ≠ [] then
          some (rest.takeWhile isSrcRunChar)
        else none
    else none
  | _ => none

/-- `content.match(/src=['"]([^'"\\]+)['"]/)`: the leftmost successful
anchored attempt, scanning start positions left to right. -/
def matchSrcFrom : Str → Option Str
  | [] => none
  | c :: rest =>
    match trySrcAt (c :: rest) with
    | some u => some u
    | none => matchSrcFrom rest

/-- `pat` is a prefix of `s` (JavaScript `s.startsWith(pat)`). -/
def strStarts : Str → Str → Bool
  | [], _ => true
  | _ :: _, [] => false
  | p :: ps, c :: cs => p == c && strStarts ps cs

/-- The literal `'http'` checked by `delta.content.startsWith('http')`. -/
def httpLit : Str := ['h', 't', 't', 'p']

/-- One content-fragment update of `finalUrl` (src/worker.js lines
381-388): a `src` attribute match wins; otherwise the whole fragment is
taken as the URL when it starts with `http`; otherwise no change. -/
def contentStep (finalUrl : Str) (c : Str) : Str :=
  match matchSrcFrom c with
  | some u => u
  | none => if strStarts httpLit c then c else finalUrl

/-- Events produced from a truthy `reasoning_content` field (src/worker.js
lines 373-378): one progress event when `/(\d+)%/` matches, else none. -/
def reasoningEvents (r : Str) : List Event :=
  match matchPercent r with
  | some p => [Event.progress p]
  | none => []

/-- Process one classified frame: the `[DONE]` payload returns with no
effect, a malformed payload is caught with no effect, and a parsed delta
may emit a progress event and update `finalUrl`. -/
def processFrame (st : Str) : Frame → Str × List Event
  | Frame.doneSentinel => (st, [])
  | Frame.malformed => (st, [])
  | Frame.delta d =>
    let evs :=
      match d.reasoning_content with
      | none => []
      | some r => if r = [] then [] else reasoningEvents r
    let st2 :=
      match d.content with
      | none => st
      | some c => if c = [] then st else contentStep st c
    (st2, evs)

/-- Fold all frames through `processFrame`, accumulating `finalUrl` and
the emitted events in order. -/
def runFrames (st : Str) (evs : List Event) : List Frame → Str × List Event
  | [] => (st, evs)
  | f :: fs =>
    let p := processFrame st f
    runFrames p.1 (evs ++ p.2) fs

/-- The error message thrown when no URL was extracted
(`"未获取到生成结果链接"`). -/
def errNoResult : Str := "未获取到生成结果链接".data

/-- How the upstream read ends: a clean end-of-input, or a transport
failure whose message reaches the catch block. -/
inductive StreamEnd where
  | eof : StreamEnd
  | transportFail : Str → StreamEnd
  deriving DecidableEq

/-- The terminal event of a session: on clean end-of-input, an empty
`finalUrl` throws the no-result error, otherwise the URL is the result;
a transport failure surfaces its message as the error. -/
def finalize (st : Str) : StreamEnd → Event
  | StreamEnd.eof => if st = [] then Event.error errNoResult else Event.result st
  | StreamEnd.transportFail m => Event.error m

/-- A whole session over classified frames: the frames delivered before
the stream ended, processed in order, followed by the one terminal
event. -/
def sessionRun (fs : List Frame) (e : StreamEnd) : List Event :=
  let p := runFrames [] [] fs
  p.2 ++ [finalize p.1 e]

/-- Leading and trailing whitespace characters removed (`line.trim()`). -/
def isWs (c : Char) : Bool := c == ' ' || c == '\t' || c == '\n' || c == '\r'

/-- JavaScript `String.trim` on both ends. -/
def trimChars (s : Str) : Str :=
  ((s.dropWhile isWs).reverse.dropWhile isWs).reverse

/-- The literal `'data:'`. -/
def dataLit : Str := ['d', 'a', 't', 'a', ':']

/-- The literal `'[DONE]'`. -/
def doneLit : Str := ['[', 'D', 'O', 'N', 'E', ']']

/-- `processLine`'s framing (src/worker.js lines 361-369): trim, require
the `data:` prefix, trim the payload, recognise the `[DONE]` sentinel, and
otherwise hand the payload to `JSON.parse` — the host parse function is
the parameter `parse` (`none` models a thrown parse error). -/
def lineToFrame (parse : Str → Option Delta) (line : Str) : Option Frame :=
  let t := trimChars line
  if strStarts dataLit t then
    let payload := trimChars (t.drop 5)
    if payload = doneLit then some Frame.doneSentinel
    else
      match parse payload with
      | none => some Frame.malformed
      | some d => some (Frame.delta d)
  else none

/-- A whole session over raw chunks: reassemble lines from the chunks,
classify each line, and run the session over the resulting frames. -/
def sessionOfChunks (parse : Str → Option Delta) (chunks : List Str)
    (e : StreamEnd) : List Event :=
  sessionRun ((linesOfChunks chunks).filterMap (lineToFrame parse)) e

/-- The percent values of the progress events of an event list, in order. -/
def progressList (evs : List Event) : List Nat :=
  evs.filterMap fun e =>
    match e with
    | Event.progress p => some p
    | _ => none

/-- Terminal events are `result` and `error`; `progress` is not. -/
def isTerminal : Event → Bool
  | Event.progress _ => false
  | Event.result _ => true
  | Event.error _ => true

/-- The progress percentage a single frame contributes, if any. -/
def frameProgress : Frame → Option Nat
  | Frame.delta d =>
    match d.reasoning_content with
    | none => none
    | some r => if r = [] then none else matchPercent r
  | _ => none

/-- JavaScript truthiness of an optional string (env var or header):
false when the value is absent or the empty string. -/
def truthy : Option Str → Bool
  | none => false
  | some s => s != []

/-- Outcome of the pre-flight checks of `handleGenerateRequest`
(src/worker.js lines 41-51). -/
inductive GenResponse where
  | serverErrorNoKey : GenResponse
  | unauthorized : GenResponse
  | proceed : GenResponse
  deriving DecidableEq

/-- The request gate (src/worker.js lines 41-51): a missing/empty
`SORA_API_KEY` yields the 500 response; otherwise, when `ACCESS_CODE` is
truthy, a missing, empty, or unequal `x-access-code` header yields the
401 response; otherwise processing proceeds. -/
def generateGate (apiKey accessCode header : Option Str) : GenResponse :=
  if truthy apiKey = false then GenResponse.serverErrorNoKey
  else if truthy accessCode = true then
    if truthy header = false ∨ header ≠ accessCode then GenResponse.unauthorized
    else GenResponse.proceed
  else GenResponse.proceed

/-- The fenced-code-block wrapping used by the specification's fence
examples: an opening ` ```html ` fence line and a trailing ` ``` `. -/
def fenceWrap (c : Str) : Str := "```html\n".data ++ c ++ "\n```".data

end SoraWorker

namespace SoraWorker

/-! ## Frame-buffer lemmas -/

theorem splitLines_cons_nl (rest : Str) :
    splitLines ('\n' :: rest) = ([] :: (splitLines rest).1, (splitLines rest).2) := by
  simp [splitLines]

theorem splitLines_cons_nil (c : Char) (rest : Str) (hc : ¬ c = '\n')
    (h : (splitLines rest).1 = []) :
    splitLines (c :: rest) = ([], c :: (splitLines rest).2) := by
  simp [splitLines, hc, h]

theorem splitLines_cons_cons (c : Char) (rest : Str) (x : Str) (xs : List Str)
    (hc : ¬ c = '\n') (h : (splitLines rest).1 = x :: xs) :
    splitLines (c :: rest) = ((c :: x) :: xs, (splitLines rest).2) := by
  simp [splitLines, hc, h]

theorem splitLines_append (a b : Str) :
    splitLines (a ++ b) =
      ((splitLines a).1 ++ (splitLines ((splitLines a).2 ++ b)).1,
       (splitLines ((splitLines a).2 ++ b)).2) := by
  induction a with
  | nil => simp [splitLines]
  | cons c a ih =>
    by_cases hc : c = '\n'
    · subst hc
      rw [List.cons_append, splitLines_cons_nl, splitLines_cons_nl, ih]
      rfl
    · rcases h1 : (splitLines a).1 with _ | ⟨h, t⟩
      · rcases h2 : (splitLines ((splitLines a).2 ++ b)).1 with _ | ⟨h2h, h2t⟩
        · have l1 : (splitLines (a ++ b)).1 = [] := by rw [ih, h1, h2]; rfl
          rw [List.cons_append, splitLines_cons_nil c _ hc l1,
              splitLines_cons_nil c a hc h1, List.nil_append, List.cons_append,
              splitLines_cons_nil c _ hc h2, ih, h1, h2]
        · have l1 : (splitLines (a ++ b)).1 = h2h :: h2t := by rw [ih, h1, h2]; rfl
          rw [List.cons_append, splitLines_cons_cons c _ _ _ hc l1,
              splitLines_cons_nil c a hc h1, List.nil_append, List.cons_append,
              splitLines_cons_cons c _ _ _ hc h2, ih, h1, h2]
      · have l1 : (splitLines (a ++ b)).1
            = h :: (t ++ (splitLines ((splitLines a).2 ++ b)).1) := by
          rw [ih, h1]; rfl
        rw [List.cons_append, splitLines_cons_cons c _ _ _ hc l1,
            splitLines_cons_cons c a _ _ hc h1, ih, h1]
        rfl

theorem feedAll_eq (chunks : List Str) (buf : Str) :
    feedAll buf chunks = splitLines (buf ++ chunks.flatten) := by
  induction chunks generalizing buf with
  | nil => simp [feedAll]
  | cons ch chs ih =>
    simp only [feedAll, ih, List.flatten_cons]
    rw [← List.append_assoc, splitLines_append (buf ++ ch) chs.flatten]

theorem linesOfChunks_eq_flatten (chunks : List Str) :
    linesOfChunks chunks =
      (splitLines chunks.flatten).1 ++
        (if (splitLines chunks.flatten).2 = [] then []
         else [(splitLines chunks.flatten).2]) := by
  simp only [linesOfChunks, feedAll_eq, List.nil_append]

/-! ## Interpreter lemmas -/

theorem runFrames_cons (st : Str) (evs : List Event) (f : Frame) (fs : List Frame) :
    runFrames st evs (f :: fs) =
      runFrames (processFrame st f).1 (evs ++ (processFrame st f).2) fs := rfl

theorem runFrames_evs_acc (fs : List Frame) (st : Str) (evs : List Event) :
    runFrames st evs fs = ((runFrames st [] fs).1, evs ++ (runFrames st [] fs).2) := by
  induction fs generalizing st evs with
  | nil => simp [runFrames]
  | cons f fs ih =>
    rw [runFrames_cons, runFrames_cons, ih,
        ih (processFrame st f).1 ([] ++ (processFrame st f).2)]
    simp

theorem runFrames_append_frames (fs gs : List Frame) (st : Str) (evs : List Event) :
    runFrames st evs (fs ++ gs) =
      runFrames (runFrames st evs fs).1 (runFrames st evs fs).2 gs := by
  induction fs generalizing st evs with
  | nil => rfl
  | cons f fs ih => rw [List.cons_append, runFrames_cons, ih, runFrames_cons]

theorem processFrame_progress (st : Str) (f : Frame) :
    progressList (processFrame st f).2 = (frameProgress f).toList := by
  cases f with
  | doneSentinel => rfl
  | malformed => rfl
  | delta d =>
    rcases d with ⟨r, c⟩
    cases r with
    | none => rfl
    | some r =>
      by_cases hr : r = []
      · simp [processFrame, frameProgress, hr, progressList]
      · simp only [processFrame, frameProgress, hr, if_neg hr, reasoningEvents]
        cases hm : matchPercent r with
        | none => simp [progressList]
        | some p => simp [progressList]

theorem processFrame_no_terminal (st : Str) (f : Frame) (x : Event)
    (hx : x ∈ (processFrame st f).2) : isTerminal x = false := by
  cases f with
  | doneSentinel => simp [processFrame] at hx
  | malformed => simp [processFrame] at hx
  | delta d =>
    rcases d with ⟨r, c⟩
    cases r with
    | none => simp [processFrame] at hx
    | some r =>
      by_cases hr : r = []
      · simp [processFrame, hr] at hx
      · simp only [processFrame, if_neg hr, reasoningEvents] at hx
        cases hm : matchPercent r with
        | none => simp [hm] at hx
        | some p =>
          rw [hm] at hx
          simp at hx
          subst hx
          rfl

theorem runFrames_no_terminal (fs : List Frame) :
    ∀ (st : Str) (x : Event), x ∈ (runFrames st [] fs).2 → isTerminal x = false := by
  induction fs with
  | nil => intro st x hx; simp [runFrames] at hx
  | cons f fs ih =>
    intro st x hx
    rw [runFrames_cons, runFrames_evs_acc] at hx
    simp only [List.nil_append, List.mem_append] at hx
    rcases hx with hx | hx
    · exact processFrame_no_terminal st f x hx
    · exact ih _ x hx

theorem progressList_append (a b : List Event) :
    progressList (a ++ b) = progressList a ++ progressList b := by
  simp [progressList, List.filterMap_append]

theorem runFrames_progressList (fs : List Frame) (st : Str) :
    progressList (runFrames st [] fs).2 = fs.filterMap frameProgress := by
  induction fs generalizing st with
  | nil => simp [runFrames, progressList]
  | cons f fs ih =>
    rw [runFrames_cons, runFrames_evs_acc]
    simp only [List.nil_append]
    rw [progressList_append, processFrame_progress, ih, List.filterMap_cons]
    cases hf : frameProgress f with
    | none => simp [hf]
    | some p => simp [hf]

theorem finalize_terminal (st : Str) (e : StreamEnd) :
    isTerminal (finalize st e) = true := by
  cases e with
  | eof =>
    by_cases h : st = []
    · simp [finalize, h, isTerminal]
    · simp [finalize, h, isTerminal]
  | transportFail m => rfl

theorem progressList_finalize (st : Str) (e : StreamEnd) :
    progressList [finalize st e] = [] := by
  cases e with
  | eof =>
    by_cases h : st = []
    · simp [finalize, h, progressList]
    · simp [finalize, h, progressList]
  | transportFail m => rfl

theorem runFrames_done_skip (gs : List Frame) (st : Str) (evs : List Event) :
    runFrames st evs (Frame.doneSentinel :: gs) = runFrames st evs gs := by
  rw [runFrames_cons]
  simp [processFrame]

theorem runFrames_filter_malformed (fs : List Frame) (st : Str) (evs : List Event) :
    runFrames st evs (fs.filter (fun f => f != Frame.malformed)) = runFrames st evs fs := by
  induction fs generalizing st evs with
  | nil => rfl
  | cons f fs ih =>
    by_cases hf : f = Frame.malformed
    · subst hf
      rw [List.filter_cons, if_neg (by simp)]
      rw [ih, runFrames_cons]
      simp [processFrame]
    · rw [List.filter_cons, if_pos (by simp [bne, hf])]
      rw [runFrames_cons, runFrames_cons, ih]

/-! ## URL-pattern lemmas -/

theorem dropWhile_append_left {p : Char → Bool} (l s : Str) (h : l.dropWhile p ≠ []) :
    (l ++ s).dropWhile p = l.dropWhile p ++ s := by
  induction l with
  | nil => exact absurd rfl h
  | cons a l ih =>
    by_cases hp : p a = true
    · rw [List.dropWhile_cons_of_pos hp] at h
      rw [List.cons_append, List.dropWhile_cons_of_pos hp,
          List.dropWhile_cons_of_pos hp, ih h]
    · rw [List.cons_append, List.dropWhile_cons_of_neg hp,
          List.dropWhile_cons_of_neg hp, List.cons_append]

theorem takeWhile_append_left {p : Char → Bool} (l s : Str) (h : l.dropWhile p ≠ []) :
    (l ++ s).takeWhile p = l.takeWhile p := by
  induction l with
  | nil => exact absurd rfl h
  | cons a l ih =>
    by_cases hp : p a = true
    · rw [List.dropWhile_cons_of_pos hp] at h
      rw [List.cons_append, List.takeWhile_cons_of_pos hp,
          List.takeWhile_cons_of_pos hp, ih h]
    · rw [List.cons_append, List.takeWhile_cons_of_neg hp, List.takeWhile_cons_of_neg hp]

theorem dropWhile_append_right {p : Char → Bool} (l s : Str) (h : l.dropWhile p = []) :
    (l ++ s).dropWhile p = s.dropWhile p := by
  induction l with
  | nil => rfl
  | cons a l ih =>
    by_cases hp : p a = true
    · rw [List.dropWhile_cons_of_pos hp] at h
      rw [List.cons_append, List.dropWhile_cons_of_pos hp, ih h]
    · rw [List.dropWhile_cons_of_neg hp] at h
      exact absurd h (by simp)

theorem mem_of_dropWhile_eq_cons {p : Char → Bool} (l : Str) (a : Char) (t : Str)
    (h : l.dropWhile p = a :: t) : a ∈ l := by
  induction l with
  | nil => simp at h
  | cons x l ih =>
    by_cases hp : p x = true
    · rw [List.dropWhile_cons_of_pos hp] at h
      exact List.mem_cons_of_mem x (ih h)
    · rw [List.dropWhile_cons_of_neg hp] at h
      rw [show x = a from (List.cons.injEq .. ▸ h).1]
      exact List.mem_cons_self a l

theorem trySrcAt_not_s (a : Char) (t : Str) (ha : a ≠ 's') : trySrcAt (a :: t) = none := by
  rcases t with _ | ⟨b, _ | ⟨c, _ | ⟨d, _ | ⟨q, rest⟩⟩⟩⟩
  · rfl
  · rfl
  · rfl
  · rfl
  · simp [trySrcAt, ha]

theorem trySrcAt_quote_at_four (t : Str)
    (h : ∀ q rest, t.drop 4 = q :: rest → isQuote q = false) : trySrcAt t = none := by
  rcases t with _ | ⟨a, _ | ⟨b, _ | ⟨c, _ | ⟨d, _ | ⟨q, rest⟩⟩⟩⟩⟩
  · rfl
  · rfl
  · rfl
  · rfl
  · rfl
  · have hq : isQuote q = false := h q rest rfl
    simp [trySrcAt, hq]

theorem trySrcAt_append (l s : Str) (hs : ∀ a ∈ s, isQuote a = false) :
    trySrcAt (l ++ s) = trySrcAt l := by
  rcases l with _ | ⟨a, _ | ⟨b, _ | ⟨c, _ | ⟨d, l5⟩⟩⟩⟩
  · rw [List.nil_append]
    exact trySrcAt_quote_at_four s fun q rest hq =>
      hs q (List.drop_subset 4 s (hq ▸ List.mem_cons_self q rest))
  · rw [List.cons_append, List.nil_append]
    exact trySrcAt_quote_at_four _ fun q rest hq =>
      hs q (List.drop_subset 3 s ((show (a :: s).drop 4 = s.drop 3 from rfl) ▸ hq ▸
        List.mem_cons_self q rest))
  · rw [List.cons_append, List.cons_append, List.nil_append]
    exact trySrcAt_quote_at_four _ fun q rest hq =>
      hs q (List.drop_subset 2 s ((show (a :: b :: s).drop 4 = s.drop 2 from rfl) ▸ hq ▸
        List.mem_cons_self q rest))
  · simp only [List.cons_append, List.nil_append]
    exact trySrcAt_quote_at_four _ fun q rest hq =>
      hs q (List.drop_subset 1 s ((show (a :: b :: c :: s).drop 4 = s.drop 1 from rfl) ▸ hq ▸
        List.mem_cons_self q rest))
  · rcases l5 with _ | ⟨q, rest⟩
    · simp only [List.cons_append, List.nil_append]
      exact trySrcAt_quote_at_four _ fun x xt hx =>
        hs x ((show (a :: b :: c :: d :: s).drop 4 = s from rfl) ▸ hx ▸
          List.mem_cons_self x xt)
    · by_cases hg : a = 's' ∧ b = 'r' ∧ c = 'c' ∧ d = '=' ∧ isQuote q = true
      · simp only [List.cons_append, trySrcAt, if_pos hg]
        cases hd : rest.dropWhile isSrcRunChar with
        | nil =>
          rw [dropWhile_append_right rest s hd]
          cases hds : s.dropWhile isSrcRunChar with
          | nil => rfl
          | cons c2 t2 =>
            have : isQuote c2 = false := hs c2 (mem_of_dropWhile_eq_cons s c2 t2 hds)
            simp [this]
        | cons c2 t2 =>
          have hne : rest.dropWhile isSrcRunChar ≠ [] := by rw [hd]; simp
          rw [dropWhile_append_left rest s hne, takeWhile_append_left rest s hne, hd]
          rfl
      · simp [List.cons_append, trySrcAt, hg]

theorem matchSrcFrom_no_s (s : Str) (hs : ∀ a ∈ s, a ≠ 's') : matchSrcFrom s = none := by
  induction s with
  | nil => rfl
  | cons a t ih =>
    simp only [matchSrcFrom]
    rw [trySrcAt_not_s a t (hs a (List.mem_cons_self a t))]
    exact ih fun y hy => hs y (List.mem_cons_of_mem a hy)

theorem matchSrcFrom_append (c s : Str) (hq : ∀ a ∈ s, isQuote a = false)
    (hns : ∀ a ∈ s, a ≠ 's') :
    matchSrcFrom (c ++ s) = matchSrcFrom c := by
  induction c with
  | nil => rw [List.nil_append, matchSrcFrom_no_s s hns]; rfl
  | cons a t ih =>
    rw [List.cons_append]
    simp only [matchSrcFrom]
    rw [show a :: (t ++ s) = (a :: t) ++ s from rfl, trySrcAt_append (a :: t) s hq]
    cases trySrcAt (a :: t) with
    | some u => rfl
    | none => exact ih

theorem matchSrcFrom_prepend (p x : Str) (hp : ∀ a ∈ p, a ≠ 's') :
    matchSrcFrom (p ++ x) = matchSrcFrom x := by
  induction p with
  | nil => rfl
  | cons a t ih =>
    rw [List.cons_append]
    simp only [matchSrcFrom]
    rw [trySrcAt_not_s a (t ++ x) (hp a (List.mem_cons_self a t))]
    exact ih fun y hy => hp y (List.mem_cons_of_mem a hy)

theorem trySrcAt_some_ne_nil (t v : Str) (h : trySrcAt t = some v) : v ≠ [] := by
  rcases t with _ | ⟨a, _ | ⟨b, _ | ⟨c, _ | ⟨d, _ | ⟨q, rest⟩⟩⟩⟩⟩
  · exact absurd h (by simp [trySrcAt])
  · exact absurd h (by simp [trySrcAt])
  · exact absurd h (by simp [trySrcAt])
  · exact absurd h (by simp [trySrcAt])
  · exact absurd h (by simp [trySrcAt])
  · simp only [trySrcAt] at h
    split at h
    · split at h
      · exact absurd h (by simp)
      · split at h
        · rename_i hcond
          rw [show v = rest.takeWhile isSrcRunChar from (Option.some.injEq .. ▸ h).symm ▸ rfl]
          exact hcond.2
        · exact absurd h (by simp)
    · exact absurd h (by simp)

theorem matchSrcFrom_some_ne_nil (c u : Str) (h : matchSrcFrom c = some u) : u ≠ [] := by
  induction c with
  | nil => exact absurd h (by simp [matchSrcFrom])
  | cons a t ih =>
    simp only [matchSrcFrom] at h
    cases ht : trySrcAt (a :: t) with
    | none => rw [ht] at h; exact ih h
    | some v =>
      rw [ht] at h
      rw [show u = v from (Option.some.injEq .. ▸ h).symm]
      exact trySrcAt_some_ne_nil (a :: t) v ht

end SoraWorker

namespace SoraWorker

/-! ## Claim theorems -/

/-- C1: for every valid upstream byte stream and every way of splitting it
into arbitrary-sized chunks, the relay emits the identical sequence of
normalized events.  The embedding `linesOfChunks` is the line buffer of
the source: each chunk is appended to the pending tail, split on the frame
delimiter, all complete pieces are processed, the final partial piece is
kept as the new tail, and at end-of-input a non-empty leftover tail is
processed as one final frame.  The theorem quantifies over the host
`JSON.parse` function, over the stream end, and over any two chunkings of
the same stream. -/
theorem c1_chunk_boundary_invariance (parse : Str → Option Delta)
    (cs cs2 : List Str) (e : StreamEnd) (h : cs.flatten = cs2.flatten) :
    sessionOfChunks parse cs e = sessionOfChunks parse cs2 e := by
  unfold sessionOfChunks
  rw [linesOfChunks_eq_flatten, linesOfChunks_eq_flatten, h]

/-- C1 witness: two concrete chunkings of the same byte stream, one of
which splits a frame in the middle of its `data:` prefix, produce the same
event sequence. -/
theorem c1_chunk_boundary_invariance_witness :
    (["data: a\nda".data, "ta: b".data] : List Str).flatten
        = (["data: a\ndata: b".data] : List Str).flatten ∧
    sessionOfChunks (fun _ => some ⟨none, none⟩) ["data: a\nda".data, "ta: b".data]
        StreamEnd.eof
      = sessionOfChunks (fun _ => some ⟨none, none⟩) ["data: a\ndata: b".data]
        StreamEnd.eof :=
  ⟨by decide, c1_chunk_boundary_invariance _ _ _ _ (by decide)⟩

/-- C2 counterexample: the claim says progress percentages are emitted
monotonically non-decreasing, a lower later value being suppressed.  The
code has no such check (src/worker.js lines 372-378 call `render.loading`
directly on every regex match): a 42% frame followed by a 9% frame emits
the progress sequence `[42, 9]`, whose later element is lower. -/
theorem c2_progress_monotonicity_counterexample :
    progressList (sessionRun
      [Frame.delta ⟨some ['4', '2', '%'], none⟩, Frame.delta ⟨some ['9', '%'], none⟩]
      StreamEnd.eof) = [42, 9] ∧ 9 < 42 := by
  decide

/-- C2 amended: the emitted progress sequence is exactly the per-frame
regex matches in arrival order, with no suppression — a later, lower
percentage is emitted, not suppressed, so the sequence need not be
non-decreasing. -/
theorem c2_amended_no_suppression (fs : List Frame) (e : StreamEnd) :
    progressList (sessionRun fs e) = fs.filterMap frameProgress := by
  unfold sessionRun
  rw [progressList_append, runFrames_progressList, progressList_finalize, List.append_nil]

/-- C3: for every session (any frame sequence and any way the upstream
read ends, cleanly or by transport failure), exactly one terminal event
(`result` or `error`) is emitted, it is the last event, and everything
before it is a non-terminal progress event. -/
theorem c3_exactly_one_terminal_last (fs : List Frame) (e : StreamEnd) :
    ∃ pre t, sessionRun fs e = pre ++ [t] ∧ isTerminal t = true ∧
      ∀ x ∈ pre, isTerminal x = false :=
  ⟨(runFrames [] [] fs).2, finalize (runFrames [] [] fs).1 e, rfl,
    finalize_terminal _ e, fun x hx => runFrames_no_terminal fs [] x hx⟩

/-- C4 counterexample: the claim says frame iteration stops at the
`[DONE]` sentinel so later frames are ignored.  In the code
(src/worker.js line 366) the sentinel merely returns from `processLine`
for that one line; the loop keeps running, so a content frame arriving
after the sentinel determines the result: with it the session ends in
`result "http://x.mp4"`, without it in the no-result error. -/
theorem c4_done_sentinel_counterexample :
    sessionRun [Frame.doneSentinel, Frame.delta ⟨none, some "http://x.mp4".data⟩]
        StreamEnd.eof
      = [Event.result "http://x.mp4".data] ∧
    sessionRun [Frame.doneSentinel] StreamEnd.eof = [Event.error errNoResult] := by
  decide

/-- C4 amended: a `[DONE]` frame is itself skipped — no event, no state
change — but iteration does not stop: frames after the sentinel are
processed exactly as if the sentinel were absent, and can change the
emitted events and the extracted result. -/
theorem c4_amended_sentinel_skipped_not_stopping (fs gs : List Frame) (e : StreamEnd) :
    sessionRun (fs ++ Frame.doneSentinel :: gs) e = sessionRun (fs ++ gs) e := by
  unfold sessionRun
  rw [runFrames_append_frames, runFrames_append_frames, runFrames_done_skip]

/-- C5 counterexample: the claim says a tag-embedded URL takes precedence
over a later bare URL in the accumulated document.  The code keeps no
accumulated document: each fragment is matched on its own (src/worker.js
lines 381-388), and a later fragment that itself begins with `http`
overwrites the previously captured tag-embedded URL, so the session
resolves to the bare URL, not the tag URL. -/
theorem c5_tag_precedence_counterexample :
    sessionRun [Frame.delta ⟨none, some "<video src=\"https://a/v.mp4\">".data⟩,
                Frame.delta ⟨none, some "https://b/x.mp4".data⟩] StreamEnd.eof
      = [Event.result "https://b/x.mp4".data] ∧
    "https://b/x.mp4".data ≠ "https://a/v.mp4".data := by
  decide

/-- C5 amended: the media-tag `src` pattern (matched case-sensitively)
takes precedence over the bare-URL check only within a single content
fragment — a fragment whose `src` pattern matches yields the captured
attribute value even if the fragment also begins with `http` — and across
fragments the last successful extraction wins, so when the last content
fragment has a `src` match, its capture is the session's result whatever
came before. -/
theorem c5_amended_tag_precedence_per_fragment (fs : List Frame) (c u : Str)
    (h : matchSrcFrom c = some u) :
    ∃ evs, sessionRun (fs ++ [Frame.delta ⟨none, some c⟩]) StreamEnd.eof
      = evs ++ [Event.result u] := by
  have hc : c ≠ [] := by
    intro e
    subst e
    exact absurd h (by simp [matchSrcFrom])
  refine ⟨(runFrames [] [] (fs ++ [Frame.delta ⟨none, some c⟩])).2, ?_⟩
  simp only [sessionRun]
  have hst : (runFrames [] [] (fs ++ [Frame.delta ⟨none, some c⟩])).1 = u := by
    rw [runFrames_append_frames, runFrames_cons]
    simp only [runFrames, processFrame, if_neg hc, contentStep, h]
  rw [hst]
  have : finalize u StreamEnd.eof = Event.result u := by
    simp [finalize, matchSrcFrom_some_ne_nil c u h]
  rw [this]

/-- C5 witness: a fragment that both begins with `http` and contains a
`src` attribute resolves to the tag-embedded URL. -/
theorem c5_amended_tag_precedence_witness :
    matchSrcFrom "http://before <video src=\"https://a/v.mp4\">".data
        = some "https://a/v.mp4".data ∧
    ∃ evs, sessionRun
        [Frame.delta ⟨none, some "http://before <video src=\"https://a/v.mp4\">".data⟩]
        StreamEnd.eof
      = evs ++ [Event.result "https://a/v.mp4".data] :=
  ⟨by decide, c5_amended_tag_precedence_per_fragment [] _ _ (by decide)⟩

/-- C6 counterexample: the claim (and the specification's scenario 3) says
the document `"see https://cdn.example/b.mp4 for output"` yields the
result `https://cdn.example/b.mp4`.  The code only checks
`delta.content.startsWith('http')` (src/worker.js line 385): a URL
preceded by other text matches nothing, so the session ends in the
no-result error instead of that result. -/
theorem c6_bare_url_scan_counterexample :
    sessionRun [Frame.delta ⟨none, some "see https://cdn.example/b.mp4 for output".data⟩]
        StreamEnd.eof
      = [Event.error errNoResult] ∧
    sessionRun [Frame.delta ⟨none, some "see https://cdn.example/b.mp4 for output".data⟩]
        StreamEnd.eof
      ≠ [Event.result "https://cdn.example/b.mp4".data] := by
  decide

/-- C6 amended: with no media-tag match, a content fragment is taken in
its entirety as the result exactly when the fragment itself begins with
`http`; a URL preceded by other text is never extracted, and such a
session ends with the no-result error rather than a result. -/
theorem c6_amended_whole_fragment_only (c : Str) (h1 : matchSrcFrom c = none) :
    (strStarts httpLit c = true →
      sessionRun [Frame.delta ⟨none, some c⟩] StreamEnd.eof = [Event.result c]) ∧
    (strStarts httpLit c = false →
      sessionRun [Frame.delta ⟨none, some c⟩] StreamEnd.eof = [Event.error errNoResult]) := by
  constructor
  · intro h2
    have hc : c ≠ [] := by
      intro e
      subst e
      simp [strStarts, httpLit] at h2
    simp only [sessionRun, runFrames, processFrame, if_neg hc, contentStep, h1, h2,
      List.nil_append, List.append_nil]
    simp [finalize, hc]
  · intro h2
    by_cases hc : c = []
    · subst hc
      simp [sessionRun, runFrames, processFrame, finalize]
    · simp only [sessionRun, runFrames, processFrame, if_neg hc, contentStep, h1, h2,
        List.nil_append, List.append_nil]
      simp [finalize]

/-- C6 witness: evaluated at the specification's own scenario document. -/
theorem c6_amended_whole_fragment_only_witness :
    matchSrcFrom "see https://cdn.example/b.mp4 for output".data = none ∧
    ((strStarts httpLit "see https://cdn.example/b.mp4 for output".data = true →
      sessionRun [Frame.delta ⟨none, some "see https://cdn.example/b.mp4 for output".data⟩]
        StreamEnd.eof = [Event.result "see https://cdn.example/b.mp4 for output".data]) ∧
     (strStarts httpLit "see https://cdn.example/b.mp4 for output".data = false →
      sessionRun [Frame.delta ⟨none, some "see https://cdn.example/b.mp4 for output".data⟩]
        StreamEnd.eof = [Event.error errNoResult])) :=
  ⟨by decide, c6_amended_whole_fragment_only _ (by decide)⟩

/-- C7: a malformed frame is discarded with no event and no abort, and a
stream with malformed frames interleaved yields not just the same
terminal outcome but the identical event sequence as the stream with the
malformed frames removed. -/
theorem c7_malformed_frames_transparent (fs : List Frame) (e : StreamEnd) :
    sessionRun (fs.filter (fun f => f != Frame.malformed)) e = sessionRun fs e := by
  unfold sessionRun
  rw [runFrames_filter_malformed]

/-- C8 counterexample: the claim says a fenced document extracts
identically to the unwrapped equivalent.  No fence stripping exists in
the code: a bare URL wrapped in a fence no longer begins with `http`, so
the fenced document yields the no-result error while the unwrapped one
yields the URL. -/
theorem c8_fence_stripping_counterexample :
    sessionRun [Frame.delta ⟨none, some "```\nhttps://cdn.example/a.mp4\n```".data⟩]
        StreamEnd.eof
      = [Event.error errNoResult] ∧
    sessionRun [Frame.delta ⟨none, some "https://cdn.example/a.mp4".data⟩] StreamEnd.eof
      = [Event.result "https://cdn.example/a.mp4".data] := by
  decide

/-- C8 amended: no fence is stripped; a fenced document extracts
identically to the unwrapped one only when the media-tag pattern matches,
because that pattern is searched anywhere in the fragment and the fence
text contains no quote and no `s`, while a fenced bare URL is lost (see
the counterexample). -/
theorem c8_amended_fence_transparent_for_tag (c u : Str) (h : matchSrcFrom c = some u) :
    matchSrcFrom (fenceWrap c) = some u ∧
    ∀ st, contentStep st (fenceWrap c) = contentStep st c := by
  have h1 : matchSrcFrom (fenceWrap c) = some u := by
    unfold fenceWrap
    rw [List.append_assoc, matchSrcFrom_prepend _ _ (by decide),
        matchSrcFrom_append _ _ (by decide) (by decide), h]
  exact ⟨h1, fun st => by simp [contentStep, h1, h]⟩

/-- C8 witness: the specification's scenario-2 media-tag document,
fenced and unfenced. -/
theorem c8_amended_fence_transparent_witness :
    matchSrcFrom "<video src=\"https://cdn.example/a.mp4\">".data
        = some "https://cdn.example/a.mp4".data ∧
    (matchSrcFrom (fenceWrap "<video src=\"https://cdn.example/a.mp4\">".data)
        = some "https://cdn.example/a.mp4".data ∧
     ∀ st, contentStep st (fenceWrap "<video src=\"https://cdn.example/a.mp4\">".data)
        = contentStep st "<video src=\"https://cdn.example/a.mp4\">".data) :=
  ⟨by decide, c8_amended_fence_transparent_for_tag _ _ (by decide)⟩

/-- C9 counterexample: the claim says a matched decimal percentage yields
an integer in 0–100.  The regex `/(\d+)%/` puts no upper bound on the
digit run: a frame whose progress field reads `250%` emits the progress
value 250. -/
theorem c9_percent_range_counterexample :
    progressList (sessionRun
      [Frame.delta ⟨some "**Video Generation Progress**: 250% (running)".data, none⟩]
      StreamEnd.eof) = [250] ∧ 100 < 250 := by
  decide

/-- C9 amended: the extracted progress value is the integer denoted by the
first digit run immediately followed by `%` in the progress-bearing text
(possibly preceded by descriptive text); it is a non-negative integer but
is not bounded by 100. -/
theorem c9_amended_digit_run (r : Str) (p : Nat) (h : matchPercent r = some p) :
    ∃ pre ds post, r = pre ++ ds ++ '%' :: post ∧ ds ≠ [] ∧
      (∀ c ∈ ds, c.isDigit = true) ∧ p = digitsToNat ds := by
  induction r with
  | nil => exact absurd h (by simp [matchPercent])
  | cons c rest ih =>
    by_cases hd : c.isDigit = true
    · simp only [matchPercent, if_pos hd] at h
      by_cases hh : ((c :: rest).dropWhile Char.isDigit).head? = some '%'
      · rw [if_pos hh] at h
        cases hdw : (c :: rest).dropWhile Char.isDigit with
        | nil => rw [hdw] at hh; simp at hh
        | cons x xs =>
          rw [hdw] at hh
          have hx : x = '%' := by simpa using hh
          subst hx
          refine ⟨[], (c :: rest).takeWhile Char.isDigit, xs, ?_, ?_, ?_, ?_⟩
          · rw [List.nil_append]
            conv_lhs => rw [← List.takeWhile_append_dropWhile Char.isDigit (c :: rest)]
            rw [hdw]
          · rw [List.takeWhile_cons_of_pos hd]
            simp
          · intro y hy
            exact List.mem_takeWhile_imp hy
          · exact (Option.some.inj h).symm
      · rw [if_neg hh] at h
        obtain ⟨pre, ds, post, hr, hne, hdig, hp⟩ := ih h
        exact ⟨c :: pre, ds, post, by rw [hr]; rfl, hne, hdig, hp⟩
    · simp only [matchPercent, if_neg hd] at h
      obtain ⟨pre, ds, post, hr, hne, hdig, hp⟩ := ih h
      exact ⟨c :: pre, ds, post, by rw [hr]; rfl, hne, hdig, hp⟩

/-- C9 witness: the specification's example progress text. -/
theorem c9_amended_digit_run_witness :
    matchPercent "**Video Generation Progress**: 42% (running)".data = some 42 ∧
    (∃ pre ds post, "**Video Generation Progress**: 42% (running)".data
        = pre ++ ds ++ '%' :: post ∧ ds ≠ [] ∧ (∀ c ∈ ds, c.isDigit = true) ∧
        42 = digitsToNat ds) :=
  ⟨by decide, c9_amended_digit_run _ _ (by decide)⟩

/-- C10 counterexample: the claim says a 401 is returned if and only if
the `ACCESS_CODE` environment variable is set and the header is absent or
unequal.  JavaScript truthiness makes `if (env.ACCESS_CODE)` skip the
whole check when the variable is set to the empty string: here
`ACCESS_CODE` is set (to `""`), the header is absent, and the request
still proceeds with no 401. -/
theorem c10_access_code_counterexample :
    generateGate (some ['k']) (some []) none = GenResponse.proceed ∧
    (some ([] : Str) : Option Str) ≠ none ∧
    generateGate (some ['k']) (some []) none ≠ GenResponse.unauthorized := by
  decide

/-- C10 amended: assuming `SORA_API_KEY` is configured (otherwise the 500
response is returned first), the endpoint returns 401 exactly when
`ACCESS_CODE` is set to a non-empty string and the `x-access-code` header
is not that exact string (absent, empty, or different); when
`ACCESS_CODE` is unset or empty, every request passes the authorization
check regardless of the header. -/
theorem c10_amended_gate (apiKey accessCode header : Option Str)
    (hk : truthy apiKey = true) :
    (generateGate apiKey accessCode header = GenResponse.unauthorized ↔
      ∃ code, accessCode = some code ∧ code ≠ [] ∧ header ≠ some code) ∧
    (truthy accessCode = false →
      generateGate apiKey accessCode header = GenResponse.proceed) := by
  have hk0 : ¬ truthy apiKey = false := by simp [hk]
  constructor
  · constructor
    · intro hg
      rcases accessCode with _ | code
      · rw [generateGate, if_neg hk0, if_neg (by simp [truthy])] at hg
        exact absurd hg (by simp)
      · by_cases hcode : code = []
        · subst hcode
          rw [generateGate, if_neg hk0, if_neg (by simp [truthy])] at hg
          exact absurd hg (by simp)
        · refine ⟨code, rfl, hcode, ?_⟩
          intro hh
          subst hh
          have ht : truthy (some code) = true := by simp [truthy, hcode]
          rw [generateGate, if_neg hk0, if_pos ht, if_neg (by simp [ht])] at hg
          exact absurd hg (by simp)
    · rintro ⟨code, rfl, hcode, hh⟩
      have ht : truthy (some code) = true := by simp [truthy, hcode]
      rw [generateGate, if_neg hk0, if_pos ht, if_pos (Or.inr hh)]
  · intro hac
    rw [generateGate, if_neg hk0, if_neg (by simp [hac])]

/-- C10 witness: with the API key configured and a non-empty access code,
an absent header is rejected with the 401 response. -/
theorem c10_amended_gate_witness :
    truthy (some ['k']) = true ∧
    ((generateGate (some ['k']) (some ['a']) none = GenResponse.unauthorized ↔
      ∃ code, (some ['a'] : Option Str) = some code ∧ code ≠ [] ∧
        (none : Option Str) ≠ some code) ∧
     (truthy (some ['a']) = false →
      generateGate (some ['k']) (some ['a']) none = GenResponse.proceed)) :=
  ⟨by decide, c10_amended_gate _ _ _ (by decide)⟩

end SoraWorker
